import Mathlib

/-!
Verification of the core analysis pipeline of `src/sirius_audio_lab.py`
(class `SiriusAudioLab`): spectral analysis, pitch estimation, note mapping,
portal-frequency scoring, and the bounded frequency history.

Floating-point samples and frequencies are modelled as real numbers; numpy's
`rfft` is modelled as the mathematical one-sided discrete Fourier transform it
computes, `np.argmax` / `np.argmin` as first-occurrence arg-extrema, and
Python's `round` (round half to even) explicitly as `pyRound`.
-/

namespace Sirius

/-- Session sample rate, `self.sample_rate = 44_100` in `__init__`. -/
def sample_rate : ℕ := 44100

/-- Session block size, `self.blocksize = 1024` in `__init__`. -/
def blocksize : ℕ := 1024

/-- Portal frequency table, `self.portal_freqs = [432, 528, 639, 741, 852]`. -/
noncomputable def portal_freqs : List ℝ := [432, 528, 639, 741, 852]

/-- Portal labels, `self.portal_names = ["Heart", ...]`. -/
def portal_names : List String :=
  ["Heart", "DNA Repair", "Connection", "Awakening", "Spiritual"]

/-- Chromatic note table from `freq_to_note`: the source's single literal
`["C", "C#", "D", "D#", "E", "F", "F#", "G", "G#", "A", "A#", "B"]`,
written here as the concatenation of its two halves. -/
def note_names : List String :=
  ["C", "C#", "D", "D#", "E", "F"] ++ ["F#", "G", "G#", "A", "A#", "B"]

/-- Minimum of a list of reals; models Python's `min(...)` over a non-empty
iterable (the `[]` case is never used by the source). -/
noncomputable def listMin : List ℝ → ℝ
  | [] => 0
  | [x] => x
  | x :: y :: ys => min x (listMin (y :: ys))

/-- Maximum of a list of reals (used to state properties of the arg-max). -/
noncomputable def listMax : List ℝ → ℝ
  | [] => 0
  | [x] => x
  | x :: y :: ys => max x (listMax (y :: ys))

/-- First index attaining the minimum, as computed by `np.argmin` (ties keep
the earliest index). -/
noncomputable def argminIdx : List ℝ → ℕ
  | [] => 0
  | [_] => 0
  | x :: y :: ys => if listMin (y :: ys) < x then argminIdx (y :: ys) + 1 else 0

/-- First index attaining the maximum, as computed by `np.argmax` (ties keep
the earliest index). -/
noncomputable def argmaxIdx : List ℝ → ℕ
  | [] => 0
  | [_] => 0
  | x :: y :: ys => if x < listMax (y :: ys) then argmaxIdx (y :: ys) + 1 else 0

/-- Maximum absolute sample value of a block, `np.max(np.abs(audio_chunk))`
(folded against `0`, which agrees with numpy on every non-empty block since
absolute values are nonnegative). -/
noncomputable def maxAbs (chunk : List ℝ) : ℝ :=
  chunk.foldr (fun x m => max |x| m) 0

/-- Per-entry absolute distances `abs(freq - pf) for pf in self.portal_freqs`. -/
noncomputable def portalDiffs (freq : ℝ) : List ℝ :=
  portal_freqs.map (fun pf => |freq - pf|)

/-- Embedding of `calculate_portal_strength` (lines 181-186). -/
noncomputable def calculate_portal_strength (freq : ℝ) : ℝ :=
  if freq = 0 then 0
  else max 0 (1 - listMin (portalDiffs freq) / 50)

/-- Closest portal label as computed in `update_gui` (lines 192-198):
`np.argmin` over the distances when the current frequency is positive,
otherwise the label `"None"`. -/
noncomputable def closest_portal (freq : ℝ) : String :=
  if 0 < freq then portal_names.getD (argminIdx (portalDiffs freq)) ""
  else "None"

/-- One append to `self.freq_history`, a `deque(maxlen=100)` (line 34):
append on the right, evicting from the left when the capacity 100 is full. -/
def historyAppend (hist : List ℝ) (x : ℝ) : List ℝ :=
  (hist ++ [x]).drop (hist.length + 1 - 100)

/-- One point of the Hann window, `0.5 - 0.5*cos(2*pi*i/(M-1))`. -/
noncomputable def hannAt (M i : ℕ) : ℝ :=
  0.5 - 0.5 * Real.cos (2 * Real.pi * i / ((M : ℝ) - 1))

/-- Embedding of `np.hanning(M)` (window of length `M`; numpy returns `[1]`
for `M = 1` and the empty array for `M = 0`). -/
noncomputable def hanning (M : ℕ) : List ℝ :=
  if M = 1 then [1] else (List.range M).map (fun i => hannAt M i)

/-- The windowed block, `audio_chunk * np.hanning(len(audio_chunk))`. -/
noncomputable def windowedOf (chunk : List ℝ) : List ℝ :=
  List.zipWith (fun a b => a * b) chunk (hanning chunk.length)

/-- Bin `k` of the discrete Fourier transform computed by `np.fft.rfft`:
`X[k] = sum_i v[i] * exp(-2*pi*I*i*k/N)`. -/
noncomputable def dftBin (v : List ℝ) (k : ℕ) : ℂ :=
  ∑ i ∈ Finset.range v.length,
    (v.getD i 0 : ℂ) * Complex.exp ((-(2 * Real.pi * i * k / v.length) : ℝ) * Complex.I)

/-- Magnitudes of the one-sided spectrum, `np.abs(np.fft.rfft(v))`; the
one-sided transform has `N/2 + 1` bins. -/
noncomputable def magnitudes (v : List ℝ) : List ℝ :=
  (List.range (v.length / 2 + 1)).map (fun k => Complex.abs (dftBin v k))

/-- Embedding of `np.fft.rfftfreq(N, 1/R)`: bin `k` corresponds to frequency
`k*R/N`. -/
noncomputable def rfftfreq (N : ℕ) (R : ℝ) : List ℝ :=
  (List.range (N / 2 + 1)).map (fun (k : ℕ) => (k : ℝ) * R / (N : ℝ))

/-- The cutoff index `int(50 * len(freqs) / (self.sample_rate / 2))` from
`analyze_frequency`; the Python float expression equals the exact rational
`100*L/44100`, and `int` truncates it toward zero, which on nonnegative
values is the floor, i.e. natural division. -/
def minFreqIdx (L : ℕ) : ℕ := 100 * L / sample_rate

/-- Magnitude spectrum of a block as computed in `analyze_frequency`. -/
noncomputable def magsOf (chunk : List ℝ) : List ℝ :=
  magnitudes (windowedOf chunk)

/-- Frequency array of a block as computed in `analyze_frequency`. -/
noncomputable def freqsOf (chunk : List ℝ) : List ℝ :=
  rfftfreq (windowedOf chunk).length (sample_rate : ℝ)

/-- The cutoff index of a block (`min_freq_idx` in the source). -/
noncomputable def minIdxOf (chunk : List ℝ) : ℕ :=
  minFreqIdx (freqsOf chunk).length

/-- The selected bin, `np.argmax(magnitudes[min_freq_idx:]) + min_freq_idx`. -/
noncomputable def dominantIdx (chunk : List ℝ) : ℕ :=
  argmaxIdx ((magsOf chunk).drop (minIdxOf chunk)) + minIdxOf chunk

/-- The spectral part of `analyze_frequency` (lines 155-166), reached after
the amplitude gate: window, transform, cut off the low bins, and return the
frequency of the first maximal remaining magnitude (`0.0` if no bin remains). -/
noncomputable def spectrumPipeline (chunk : List ℝ) : ℝ :=
  if 0 < ((magsOf chunk).drop (minIdxOf chunk)).length then
    (freqsOf chunk).getD (dominantIdx chunk) 0
  else 0

/-- The amplitude gate of `analyze_frequency` (lines 152-153), parameterized
by the rest of the analysis: when the gate fires, `f` is never consulted. -/
noncomputable def analyzeWith (f : List ℝ → ℝ) (chunk : List ℝ) : ℝ :=
  if maxAbs chunk < 0.01 then 0 else f chunk

/-- Embedding of `analyze_frequency` (lines 151-166). -/
noncomputable def analyze_frequency : List ℝ → ℝ :=
  analyzeWith spectrumPipeline

/-- Python's builtin `round` (round half to even) on a real argument, as an
integer; away from exact half-integers it agrees with rounding to the
nearest integer. -/
noncomputable def pyRound (x : ℝ) : ℤ :=
  if Int.fract x = 1 / 2 then (if Even ⌊x⌋ then ⌊x⌋ else ⌊x⌋ + 1)
  else round x

/-- The MIDI note number `n = 12 * np.log2(freq / A4) + 69` from
`freq_to_note`, with `A4 = 440`. -/
noncomputable def midiNumber (freq : ℝ) : ℝ :=
  12 * Real.logb 2 (freq / 440) + 69

/-- Embedding of `freq_to_note` (lines 168-179); Python's `%` is the
nonnegative remainder (`Int.emod`) and `//` is floor division (`Int.fdiv`). -/
noncomputable def freq_to_note (freq : ℝ) : String :=
  if freq < 50 then "Silence"
  else
    note_names.getD (pyRound (midiNumber freq) % 12).toNat ""
      ++ toString ((pyRound (midiNumber freq)).fdiv 12 - 1)

/-- The analysis fields of `SiriusAudioLab` mutated by `audio_callback`
(lines 31-34 and 141-144). -/
structure AnalysisState where
  current_freq : ℝ
  current_note : String
  portal_strength : ℝ
  freq_history : List ℝ

/-- Initial analysis state from `__init__` (lines 31-34). -/
noncomputable def initState : AnalysisState :=
  { current_freq := 0
    current_note := "Silence"
    portal_strength := 0
    freq_history := [] }

/-- Embedding of the analysis part of `audio_callback` (lines 138-144): the
delivered block is analyzed unconditionally (the source performs no
block-length check) and every field is overwritten. -/
noncomputable def audio_callback (chunk : List ℝ) (s : AnalysisState) : AnalysisState :=
  { current_freq := analyze_frequency chunk
    current_note := freq_to_note (analyze_frequency chunk)
    portal_strength := calculate_portal_strength (analyze_frequency chunk)
    freq_history := historyAppend s.freq_history (analyze_frequency chunk) }

/-- A concrete block of the session's length 1024: zero everywhere except
index 511, whose value `(1/2) / hannAt 1024 511` lies in `[-1, 1]` and is
chosen so that the windowed block is a discrete impulse of height `1/2`,
making every magnitude bin equal. -/
noncomputable def deltaChunk : List ℝ :=
  (List.range 1024).map (fun i => if i = 511 then (1 / 2) / hannAt 1024 511 else 0)

/- ### Generic lemmas about the list helpers -/

lemma listMin_cons (x : ℝ) (xs : List ℝ) (h : xs ≠ []) :
    listMin (x :: xs) = min x (listMin xs) := by
  cases xs with
  | nil => exact absurd rfl h
  | cons y ys => rfl

lemma listMax_cons (x : ℝ) (xs : List ℝ) (h : xs ≠ []) :
    listMax (x :: xs) = max x (listMax xs) := by
  cases xs with
  | nil => exact absurd rfl h
  | cons y ys => rfl

lemma listMin_mem : ∀ l : List ℝ, l ≠ [] → listMin l ∈ l := by
  intro l
  induction l with
  | nil => intro h; exact absurd rfl h
  | cons x xs ih =>
    intro _
    cases xs with
    | nil => simp [listMin]
    | cons y ys =>
      rw [listMin_cons x (y :: ys) (by simp)]
      rcases min_cases x (listMin (y :: ys)) with ⟨h1, _⟩ | ⟨h1, _⟩
      · rw [h1]; exact List.mem_cons_self x (y :: ys)
      · rw [h1]; exact List.mem_cons_of_mem x (ih (by simp))

lemma listMin_le : ∀ (l : List ℝ) (x : ℝ), x ∈ l → listMin l ≤ x := by
  intro l
  induction l with
  | nil => intro x hx; simp at hx
  | cons a as ih =>
    intro x hx
    cases as with
    | nil =>
      simp at hx
      simp [listMin, hx]
    | cons y ys =>
      rw [listMin_cons a (y :: ys) (by simp)]
      rcases List.mem_cons.mp hx with h | h
      · exact h ▸ min_le_left _ _
      · exact le_trans (min_le_right _ _) (ih x h)

lemma le_listMax : ∀ (l : List ℝ) (x : ℝ), x ∈ l → x ≤ listMax l := by
  intro l
  induction l with
  | nil => intro x hx; simp at hx
  | cons a as ih =>
    intro x hx
    cases as with
    | nil =>
      simp at hx
      simp [listMax, hx]
    | cons y ys =>
      rw [listMax_cons a (y :: ys) (by simp)]
      rcases List.mem_cons.mp hx with h | h
      · exact h ▸ le_max_left _ _
      · exact le_trans (ih x h) (le_max_right _ _)

lemma argminIdx_lt_length : ∀ l : List ℝ, l ≠ [] → argminIdx l < l.length := by
  intro l
  induction l with
  | nil => intro h; exact absurd rfl h
  | cons x xs ih =>
    intro _
    cases xs with
    | nil => simp [argminIdx]
    | cons y ys =>
      show (if listMin (y :: ys) < x then argminIdx (y :: ys) + 1 else 0) < _
      split
      · have := ih (by simp)
        simpa using Nat.succ_lt_succ this
      · simp

lemma argmaxIdx_lt_length : ∀ l : List ℝ, l ≠ [] → argmaxIdx l < l.length := by
  intro l
  induction l with
  | nil => intro h; exact absurd rfl h
  | cons x xs ih =>
    intro _
    cases xs with
    | nil => simp [argmaxIdx]
    | cons y ys =>
      show (if x < listMax (y :: ys) then argmaxIdx (y :: ys) + 1 else 0) < _
      split
      · have := ih (by simp)
        simpa using Nat.succ_lt_succ this
      · simp

lemma getD_argminIdx : ∀ l : List ℝ, l ≠ [] → l.getD (argminIdx l) 0 = listMin l := by
  intro l
  induction l with
  | nil => intro h; exact absurd rfl h
  | cons x xs ih =>
    intro _
    cases xs with
    | nil => simp [argminIdx, listMin]
    | cons y ys =>
      rw [listMin_cons x (y :: ys) (by simp)]
      show List.getD _ (if listMin (y :: ys) < x then argminIdx (y :: ys) + 1 else 0) 0 = _
      split
      next h =>
        rw [min_eq_right (le_of_lt h)]
        simpa using ih (by simp)
      next h =>
        rw [min_eq_left (le_of_not_lt h)]
        simp

lemma getD_argmaxIdx : ∀ l : List ℝ, l ≠ [] → l.getD (argmaxIdx l) 0 = listMax l := by
  intro l
  induction l with
  | nil => intro h; exact absurd rfl h
  | cons x xs ih =>
    intro _
    cases xs with
    | nil => simp [argmaxIdx, listMax]
    | cons y ys =>
      rw [listMax_cons x (y :: ys) (by simp)]
      show List.getD _ (if x < listMax (y :: ys) then argmaxIdx (y :: ys) + 1 else 0) 0 = _
      split
      next h =>
        rw [max_eq_right (le_of_lt h)]
        simpa using ih (by simp)
      next h =>
        rw [max_eq_left (le_of_not_lt h)]
        simp

lemma argminIdx_stable :
    ∀ (l : List ℝ) (j : ℕ), j < argminIdx l → listMin l < l.getD j 0 := by
  intro l
  induction l with
  | nil => intro j hj; simp [argminIdx] at hj
  | cons x xs ih =>
    intro j hj
    cases xs with
    | nil => simp [argminIdx] at hj
    | cons y ys =>
      have hx : argminIdx (x :: y :: ys)
          = if listMin (y :: ys) < x then argminIdx (y :: ys) + 1 else 0 := rfl
      rw [hx] at hj
      split at hj
      next h =>
        rw [listMin_cons x (y :: ys) (by simp), min_eq_right (le_of_lt h)]
        cases j with
        | zero => simpa using h
        | succ i =>
          have : i < argminIdx (y :: ys) := Nat.lt_of_succ_lt_succ hj
          simpa using ih i this
      next h => simp at hj

lemma argmaxIdx_stable :
    ∀ (l : List ℝ) (j : ℕ), j < argmaxIdx l → l.getD j 0 < listMax l := by
  intro l
  induction l with
  | nil => intro j hj; simp [argmaxIdx] at hj
  | cons x xs ih =>
    intro j hj
    cases xs with
    | nil => simp [argmaxIdx] at hj
    | cons y ys =>
      have hx : argmaxIdx (x :: y :: ys)
          = if x < listMax (y :: ys) then argmaxIdx (y :: ys) + 1 else 0 := rfl
      rw [hx] at hj
      split at hj
      next h =>
        rw [listMax_cons x (y :: ys) (by simp), max_eq_right (le_of_lt h)]
        cases j with
        | zero => simpa using h
        | succ i =>
          have : i < argmaxIdx (y :: ys) := Nat.lt_of_succ_lt_succ hj
          simpa using ih i this
      next h => simp at hj

lemma listMax_replicate (n : ℕ) (c : ℝ) (hn : n ≠ 0) :
    listMax (List.replicate n c) = c := by
  induction n with
  | zero => exact absurd rfl hn
  | succ m ih =>
    cases m with
    | zero => simp [listMax]
    | succ k =>
      rw [List.replicate_succ,
        listMax_cons c (List.replicate (k + 1) c) (by simp),
        ih (by simp)]
      simp

lemma argmaxIdx_replicate (n : ℕ) (c : ℝ) :
    argmaxIdx (List.replicate n c) = 0 := by
  cases n with
  | zero => rfl
  | succ m =>
    cases m with
    | zero => rfl
    | succ k =>
      rw [List.replicate_succ]
      have hne : List.replicate (k + 1) c ≠ [] := by simp
      show (if c < listMax (List.replicate (k + 1) c) then _ + 1 else 0) = 0
      rw [listMax_replicate (k + 1) c (by simp)]
      simp

lemma mem_le_maxAbs : ∀ (l : List ℝ) (x : ℝ), x ∈ l → |x| ≤ maxAbs l := by
  intro l
  induction l with
  | nil => intro x hx; simp at hx
  | cons a as ih =>
    intro x hx
    rcases List.mem_cons.mp hx with h | h
    · rw [h]; exact le_max_left _ _
    · exact le_trans (ih x h) (le_max_right _ _)

lemma getD_map_range (f : ℕ → ℝ) (N i : ℕ) :
    ((List.range N).map f).getD i 0 = if i < N then f i else 0 := by
  by_cases h : i < N
  · rw [if_pos h, List.getD_eq_getElem _ _ (by simpa using h)]
    simp
  · rw [if_neg h, List.getD_eq_default]
    simpa using Nat.le_of_not_lt h

lemma getD_drop (l : List ℝ) (m i : ℕ) :
    (l.drop m).getD i 0 = l.getD (m + i) 0 := by
  by_cases h : m + i < l.length
  · have h2 : i < (l.drop m).length := by
      rw [List.length_drop]; omega
    rw [List.getD_eq_getElem _ _ h2, List.getD_eq_getElem _ _ h, List.getElem_drop]
  · rw [List.getD_eq_default _ _ (by rw [List.length_drop]; omega),
      List.getD_eq_default _ _ (by omega)]

lemma portalDiffs_length (freq : ℝ) : (portalDiffs freq).length = 5 := by
  simp [portalDiffs, portal_freqs]

/-- C5: for every nonzero frequency the portal strength is
`max 0 (1 - d / 50)` where `d` is the minimum absolute distance between the
frequency and the portal table (realized by a table entry and bounding every
entry from below); for every positive frequency the closest label is the
first table entry attaining that minimum distance; for the silence value
`0.0` the strength is `0.0` and the label is `"None"`. -/
theorem c5_portal_scorer (freq : ℝ) :
    (freq ≠ 0 →
      calculate_portal_strength freq = max 0 (1 - listMin (portalDiffs freq) / 50) ∧
      (∃ pf ∈ portal_freqs, listMin (portalDiffs freq) = |freq - pf|) ∧
      (∀ pf ∈ portal_freqs, listMin (portalDiffs freq) ≤ |freq - pf|)) ∧
    (0 < freq →
      ∃ i, i < portal_names.length ∧
        closest_portal freq = portal_names.getD i "" ∧
        (portalDiffs freq).getD i 0 = listMin (portalDiffs freq) ∧
        (∀ j, j < i → listMin (portalDiffs freq) < (portalDiffs freq).getD j 0)) ∧
    (freq = 0 → calculate_portal_strength freq = 0 ∧ closest_portal freq = "None") := by
  have hne : portalDiffs freq ≠ [] := by
    intro h
    have := portalDiffs_length freq
    rw [h] at this
    simp at this
  refine ⟨?_, ?_, ?_⟩
  · intro h
    refine ⟨by rw [calculate_portal_strength, if_neg h], ?_, ?_⟩
    · have hmem := listMin_mem (portalDiffs freq) hne
      rcases List.mem_map.mp hmem with ⟨pf, hpf, heq⟩
      exact ⟨pf, hpf, heq.symm⟩
    · intro pf hpf
      exact listMin_le _ _ (List.mem_map_of_mem _ hpf)
  · intro h
    refine ⟨argminIdx (portalDiffs freq), ?_, ?_, ?_, ?_⟩
    · have := argminIdx_lt_length (portalDiffs freq) hne
      rw [portalDiffs_length] at this
      simpa [portal_names] using this
    · rw [closest_portal, if_pos h]
    · exact getD_argminIdx _ hne
    · intro j hj
      exact argminIdx_stable _ j hj
  · intro h
    constructor
    · rw [calculate_portal_strength, if_pos h]
    · rw [closest_portal, if_neg (by simp [h])]

/-- C5 witness: at the concrete silent frequency `0.0` the scorer returns
strength `0` and label `"None"`. -/
theorem c5_witness : calculate_portal_strength 0 = 0 ∧ closest_portal 0 = "None" :=
  (c5_portal_scorer 0).2.2 rfl

lemma listMin_five (a b c d e : ℝ) :
    listMin [a, b, c, d, e] = min a (min b (min c (min d e))) := rfl

lemma cps_482 : calculate_portal_strength 482 = 2 / 25 := by
  rw [calculate_portal_strength, if_neg (by norm_num)]
  have h : portalDiffs 482 = [50, 46, 157, 259, 370] := by
    simp only [portalDiffs, portal_freqs, List.map_cons, List.map_nil]
    norm_num [abs_of_nonneg, abs_of_nonpos]
  rw [h, listMin_five]
  norm_num [min_def, max_def]

/-- C6 counterexample: with the default table, the input `482.0` yields
portal strength `0.08`, not `0.0` as the claim states (the nearest table
entry is `528`, at distance `46 < 50`). -/
theorem c6_counterexample :
    calculate_portal_strength 482 = 2 / 25 ∧ (2 / 25 : ℝ) ≠ 0 :=
  ⟨cps_482, by norm_num⟩

/-- C6 (amended): with the default portal table, the scorer returns strength
`1.0` with label `"Heart"` for `432.0`, strength `0.5` with label `"Heart"`
for `457.0`, and strength `0.08 = 1 - 46/50` with label `"DNA Repair"` (the
table entry closest by distance) for `482.0`. -/
theorem c6_portal_examples :
    calculate_portal_strength 432 = 1 ∧ closest_portal 432 = "Heart" ∧
    calculate_portal_strength 457 = 1 / 2 ∧ closest_portal 457 = "Heart" ∧
    calculate_portal_strength 482 = 2 / 25 ∧ closest_portal 482 = "DNA Repair" := by
  have h432 : portalDiffs 432 = [0, 96, 207, 309, 420] := by
    simp only [portalDiffs, portal_freqs, List.map_cons, List.map_nil]
    norm_num [abs_of_nonneg, abs_of_nonpos]
  have h457 : portalDiffs 457 = [25, 71, 182, 284, 395] := by
    simp only [portalDiffs, portal_freqs, List.map_cons, List.map_nil]
    norm_num [abs_of_nonneg, abs_of_nonpos]
  have h482 : portalDiffs 482 = [50, 46, 157, 259, 370] := by
    simp only [portalDiffs, portal_freqs, List.map_cons, List.map_nil]
    norm_num [abs_of_nonneg, abs_of_nonpos]
  refine ⟨?_, ?_, ?_, ?_, cps_482, ?_⟩
  · rw [calculate_portal_strength, if_neg (by norm_num), h432, listMin_five]
    norm_num [min_def, max_def]
  · rw [closest_portal, if_pos (by norm_num), h432]
    have : argminIdx [(0:ℝ), 96, 207, 309, 420] = 0 := by
      show (if listMin [(96:ℝ), 207, 309, 420] < 0 then _ + 1 else 0) = 0
      rw [if_neg]
      show ¬ min (96:ℝ) (min 207 (min 309 420)) < 0
      norm_num
    rw [this]
    rfl
  · rw [calculate_portal_strength, if_neg (by norm_num), h457, listMin_five]
    norm_num [min_def, max_def]
  · rw [closest_portal, if_pos (by norm_num), h457]
    have : argminIdx [(25:ℝ), 71, 182, 284, 395] = 0 := by
      show (if listMin [(71:ℝ), 182, 284, 395] < 25 then _ + 1 else 0) = 0
      rw [if_neg]
      show ¬ min (71:ℝ) (min 182 (min 284 395)) < 25
      norm_num
    rw [this]
    rfl
  · rw [closest_portal, if_pos (by norm_num), h482]
    have h1 : argminIdx [(46:ℝ), 157, 259, 370] = 0 := by
      show (if listMin [(157:ℝ), 259, 370] < 46 then _ + 1 else 0) = 0
      rw [if_neg]
      show ¬ min (157:ℝ) (min 259 370) < 46
      norm_num
    have : argminIdx [(50:ℝ), 46, 157, 259, 370] = 1 := by
      show (if listMin [(46:ℝ), 157, 259, 370] < 50 then argminIdx [(46:ℝ), 157, 259, 370] + 1 else 0) = 1
      rw [if_pos, h1]
      show min (46:ℝ) (min 157 (min 259 370)) < 50
      rw [min_eq_left (by norm_num)]
      norm_num
    rw [this]
    rfl

lemma foldl_historyAppend (fs : List ℝ) :
    ∀ l : List ℝ, l.length ≤ 100 →
      List.foldl historyAppend l fs = (l ++ fs).drop (l.length + fs.length - 100) := by
  induction fs with
  | nil =>
    intro l hl
    simp only [List.foldl_nil, List.append_nil, List.length_nil, Nat.add_zero]
    rw [Nat.sub_eq_zero_of_le hl, List.drop_zero]
  | cons x xs ih =>
    intro l hl
    simp only [List.foldl_cons, List.length_cons]
    by_cases h : l.length < 100
    · have h1 : historyAppend l x = l ++ [x] := by
        rw [historyAppend, Nat.sub_eq_zero_of_le (by omega), List.drop_zero]
      rw [h1, ih (l ++ [x]) (by simp only [List.length_append, List.length_singleton]; omega)]
      have e1 : (l ++ [x]) ++ xs = l ++ x :: xs := by simp
      have e2 : (l ++ [x]).length + xs.length - 100 = l.length + (xs.length + 1) - 100 := by
        simp only [List.length_append, List.length_singleton]
        omega
      rw [e1, e2]
    · have hl100 : l.length = 100 := le_antisymm hl (Nat.le_of_not_lt h)
      have h1 : historyAppend l x = (l ++ [x]).drop 1 := by
        rw [historyAppend, hl100]
      have h2 : ((l ++ [x]).drop 1).length = 100 := by
        simp only [List.length_drop, List.length_append, List.length_singleton]
        omega
      have e2 : 100 + xs.length - 100 = xs.length := by omega
      have e3 : l.length + (xs.length + 1) - 100 = xs.length + 1 := by omega
      rw [h1, ih _ (le_of_eq h2), h2, e2, e3]
      have e4 : (l ++ [x]).drop 1 ++ xs = ((l ++ [x]) ++ xs).drop 1 :=
        (List.drop_append_of_le_length (by simp)).symm
      rw [e4, List.drop_drop]
      have e5 : (l ++ [x]) ++ xs = l ++ x :: xs := by simp
      rw [e5]
      congr 1
      omega

/-- C7: folding any sequence of frequencies through the history append of
the `deque(maxlen=100)` starting from the empty history leaves at most 100
entries, and after `100 + k` appends the history is exactly the last 100
appended frequencies in arrival order (the first `k` are evicted). -/
theorem c7_history_bounded (fs : List ℝ) (k : ℕ) :
    (List.foldl historyAppend [] fs).length ≤ 100 ∧
    (fs.length = 100 + k → List.foldl historyAppend [] fs = fs.drop k) := by
  have h := foldl_historyAppend fs [] (by simp)
  simp only [List.nil_append, List.length_nil, Nat.zero_add] at h
  constructor
  · rw [h, List.length_drop]
    omega
  · intro hk
    rw [h, hk]
    congr 1
    omega

/-- C7 witness: after 101 appends to the empty history exactly the first
entry has been evicted. -/
theorem c7_witness :
    List.foldl historyAppend [] (List.replicate 101 (0:ℝ))
      = (List.replicate 101 (0:ℝ)).drop 1 :=
  (c7_history_bounded (List.replicate 101 (0:ℝ)) 1).2 (by simp)

/-- C8 counterexample: a delivered block whose length 3 differs from the
configured block size 1024 is not rejected: `audio_callback` processes it
and mutates the analysis state (the frequency history grows). -/
theorem c8_counterexample :
    (List.replicate 3 (0:ℝ)).length ≠ blocksize ∧
    audio_callback (List.replicate 3 (0:ℝ)) initState ≠ initState := by
  constructor
  · simp [blocksize]
  · intro h
    have h2 := congrArg AnalysisState.freq_history h
    simp [audio_callback, initState, historyAppend] at h2

/-- C8 (amended): the intake performs no block-length validation: a block of
any length other than the configured block size is processed by the same
pipeline as a well-formed block, every scalar field is overwritten with the
derived values, and the frequency is appended to the bounded history. -/
theorem c8_no_length_check (chunk : List ℝ) (s : AnalysisState)
    (hlen : chunk.length ≠ blocksize) (hcap : s.freq_history.length ≤ 100) :
    (audio_callback chunk s).current_freq = analyze_frequency chunk ∧
    (audio_callback chunk s).current_note = freq_to_note (analyze_frequency chunk) ∧
    (audio_callback chunk s).portal_strength = calculate_portal_strength (analyze_frequency chunk) ∧
    (audio_callback chunk s).freq_history = historyAppend s.freq_history (analyze_frequency chunk) ∧
    (audio_callback chunk s).freq_history.length = min (s.freq_history.length + 1) 100 := by
  refine ⟨rfl, rfl, rfl, rfl, ?_⟩
  show (historyAppend s.freq_history (analyze_frequency chunk)).length = _
  rw [historyAppend, List.length_drop]
  simp only [List.length_append, List.length_singleton]
  omega

/-- C8 witness: the wrong-length block of length 3 is processed and its
frequency appended to the (empty) initial history. -/
theorem c8_witness :
    (audio_callback (List.replicate 3 (0:ℝ)) initState).freq_history.length
      = min (initState.freq_history.length + 1) 100 :=
  (c8_no_length_check (List.replicate 3 (0:ℝ)) initState
    (by simp [blocksize]) (by simp [initState])).2.2.2.2

lemma pyRound_eq (x : ℝ) (m : ℤ) (h1 : (m:ℝ) - 1/2 < x) (h2 : x < (m:ℝ) + 1/2) :
    pyRound x = m := by
  have hr : round x = m := by
    rw [round_eq, Int.floor_eq_iff]
    constructor
    · linarith
    · push_cast
      linarith
  rw [pyRound, if_neg]
  · exact hr
  · intro hf
    have hx : x - (⌊x⌋:ℝ) = 1/2 := by rw [Int.self_sub_floor, hf]
    have hlo : (m:ℝ) - 1 < (⌊x⌋:ℝ) := by linarith
    have hhi : (⌊x⌋:ℝ) < (m:ℝ) := by linarith
    have hlo2 : m - 1 < ⌊x⌋ := by exact_mod_cast hlo
    have hhi2 : ⌊x⌋ < m := by exact_mod_cast hhi
    omega

lemma pyRound_dist (x : ℝ) : |(pyRound x : ℝ) - x| ≤ 1/2 := by
  by_cases hf : Int.fract x = 1/2
  · have hx : x - (⌊x⌋:ℝ) = 1/2 := by rw [Int.self_sub_floor, hf]
    rw [pyRound, if_pos hf]
    by_cases he : Even ⌊x⌋
    · rw [if_pos he, abs_le]
      constructor
      · linarith
      · linarith
    · rw [if_neg he, abs_le]
      push_cast
      constructor
      · linarith
      · linarith
  · rw [pyRound, if_neg hf, abs_sub_comm]
    exact abs_sub_round x

lemma midi_440 : midiNumber 440 = 69 := by
  rw [midiNumber, div_self (by norm_num : (440:ℝ) ≠ 0), Real.logb_one]
  norm_num

lemma note_440 : freq_to_note 440 = "A4" := by
  rw [freq_to_note, if_neg (by norm_num)]
  have h : pyRound (midiNumber 440) = 69 := by
    rw [midi_440]
    exact pyRound_eq _ 69 (by push_cast; norm_num) (by push_cast; norm_num)
  rw [h]
  rfl

lemma midi_26163_bounds : 59.5 < midiNumber 261.63 ∧ midiNumber 261.63 < 60.5 := by
  have hq : (0:ℝ) < 261.63 / 440 := by norm_num
  have h2 : (1:ℝ) < 2 := one_lt_two
  have hlog1 : (-19/24 : ℝ) < Real.logb 2 (261.63/440) := by
    rw [Real.lt_logb_iff_rpow_lt h2 hq]
    have h24 : ((2:ℝ) ^ ((-19:ℝ)/24)) ^ (24:ℕ) = (2:ℝ) ^ ((-19:ℝ)) := by
      rw [← Real.rpow_natCast ((2:ℝ) ^ ((-19:ℝ)/24)) 24,
        ← Real.rpow_mul (by norm_num : (0:ℝ) ≤ 2)]
      norm_num
    have hval : (2:ℝ) ^ ((-19:ℝ)) = (524288:ℝ)⁻¹ := by
      rw [show (-19:ℝ) = -((19:ℕ):ℝ) by norm_num,
        Real.rpow_neg (by norm_num : (0:ℝ) ≤ 2), Real.rpow_natCast]
      norm_num
    have key : ((2:ℝ) ^ ((-19:ℝ)/24)) ^ (24:ℕ) < (261.63/440) ^ (24:ℕ) := by
      rw [h24, hval]
      norm_num
    exact lt_of_pow_lt_pow_left 24 (le_of_lt hq) key
  have hlog2 : Real.logb 2 (261.63/440) < (-17/24 : ℝ) := by
    rw [Real.logb_lt_iff_lt_rpow h2 hq]
    have h24 : ((2:ℝ) ^ ((-17:ℝ)/24)) ^ (24:ℕ) = (2:ℝ) ^ ((-17:ℝ)) := by
      rw [← Real.rpow_natCast ((2:ℝ) ^ ((-17:ℝ)/24)) 24,
        ← Real.rpow_mul (by norm_num : (0:ℝ) ≤ 2)]
      norm_num
    have hval : (2:ℝ) ^ ((-17:ℝ)) = (131072:ℝ)⁻¹ := by
      rw [show (-17:ℝ) = -((17:ℕ):ℝ) by norm_num,
        Real.rpow_neg (by norm_num : (0:ℝ) ≤ 2), Real.rpow_natCast]
      norm_num
    have key : (261.63/440) ^ (24:ℕ) < ((2:ℝ) ^ ((-17:ℝ)/24)) ^ (24:ℕ) := by
      rw [h24, hval]
      norm_num
    exact lt_of_pow_lt_pow_left 24 (Real.rpow_nonneg (by norm_num) _) key
  constructor
  · rw [midiNumber]
    norm_num
    nlinarith [hlog1]
  · rw [midiNumber]
    norm_num
    nlinarith [hlog2]

lemma note_26163 : freq_to_note 261.63 = "C4" := by
  rw [freq_to_note, if_neg (by norm_num)]
  have h : pyRound (midiNumber 261.63) = 60 := by
    have hb := midi_26163_bounds
    refine pyRound_eq _ 60 ?_ ?_
    · push_cast
      linarith [hb.1]
    · push_cast
      linarith [hb.2]
  rw [h]
  rfl

/-- C4: for every frequency at least 50 Hz, `freq_to_note` renders the note
whose MIDI number `n` is `12 * log2(freq/440) + 69` rounded to the nearest
integer (within one half), with pitch class `n mod 12` (always in `[0, 12)`)
looked up in the chromatic table starting at C and octave `n // 12 - 1`;
below 50 Hz it returns `"Silence"`; in particular `440.0` maps to A4 and
`261.63` maps to C4. -/
theorem c4_note_mapper :
    (∀ freq : ℝ, 50 ≤ freq →
      ∃ n : ℤ, |(n:ℝ) - (12 * Real.logb 2 (freq / 440) + 69)| ≤ 1/2 ∧
        0 ≤ n % 12 ∧ n % 12 < 12 ∧
        freq_to_note freq
          = note_names.getD (n % 12).toNat "" ++ toString (n.fdiv 12 - 1)) ∧
    (∀ freq : ℝ, freq < 50 → freq_to_note freq = "Silence") ∧
    freq_to_note 440 = "A4" ∧ freq_to_note 261.63 = "C4" := by
  refine ⟨?_, ?_, note_440, note_26163⟩
  · intro freq h50
    refine ⟨pyRound (midiNumber freq), ?_, Int.emod_nonneg _ (by norm_num),
      Int.emod_lt_of_pos _ (by norm_num), ?_⟩
    · have := pyRound_dist (midiNumber freq)
      rw [midiNumber] at this
      exact this
    · rw [freq_to_note, if_neg (not_lt.mpr h50)]
  · intro freq h
    rw [freq_to_note, if_pos h]

/-- C4 witness: the concrete frequency `440.0` passes the 50 Hz threshold
and is rendered through the MIDI formula. -/
theorem c4_witness :
    ∃ n : ℤ, |(n:ℝ) - (12 * Real.logb 2 ((440:ℝ) / 440) + 69)| ≤ 1/2 ∧
      0 ≤ n % 12 ∧ n % 12 < 12 ∧
      freq_to_note 440 = note_names.getD (n % 12).toNat "" ++ toString (n.fdiv 12 - 1) :=
  c4_note_mapper.1 440 (by norm_num)

lemma hanning_length (M : ℕ) : (hanning M).length = M := by
  rw [hanning]
  split
  next h => simp [h]
  next => simp

lemma windowedOf_length (chunk : List ℝ) : (windowedOf chunk).length = chunk.length := by
  rw [windowedOf, List.length_zipWith, hanning_length]
  exact min_self _

lemma magnitudes_length (v : List ℝ) : (magnitudes v).length = v.length / 2 + 1 := by
  simp [magnitudes]

lemma rfftfreq_length (N : ℕ) (R : ℝ) : (rfftfreq N R).length = N / 2 + 1 := by
  simp [rfftfreq]

lemma freqsOf_length (chunk : List ℝ) : (freqsOf chunk).length = chunk.length / 2 + 1 := by
  rw [freqsOf, rfftfreq_length, windowedOf_length]

lemma magsOf_length (chunk : List ℝ) : (magsOf chunk).length = chunk.length / 2 + 1 := by
  rw [magsOf, magnitudes_length, windowedOf_length]

lemma minIdxOf_lt (chunk : List ℝ) : minIdxOf chunk < (magsOf chunk).length := by
  rw [minIdxOf, minFreqIdx, freqsOf_length, magsOf_length, sample_rate]
  have hL : 1 ≤ chunk.length / 2 + 1 := by omega
  rw [Nat.div_lt_iff_lt_mul (by norm_num)]
  nlinarith [hL]

lemma drop_mags_length_pos (chunk : List ℝ) :
    0 < ((magsOf chunk).drop (minIdxOf chunk)).length := by
  rw [List.length_drop]
  have := minIdxOf_lt chunk
  omega

lemma spectrumPipeline_eq (chunk : List ℝ) :
    spectrumPipeline chunk = (freqsOf chunk).getD (dominantIdx chunk) 0 := by
  rw [spectrumPipeline, if_pos (drop_mags_length_pos chunk)]

lemma dominantIdx_lt (chunk : List ℝ) : dominantIdx chunk < (magsOf chunk).length := by
  rw [dominantIdx]
  have h1 : ((magsOf chunk).drop (minIdxOf chunk)) ≠ [] := by
    have := drop_mags_length_pos chunk
    intro h
    rw [h] at this
    simp at this
  have h2 := argmaxIdx_lt_length _ h1
  rw [List.length_drop] at h2
  omega

lemma freqsOf_getD (chunk : List ℝ) (i : ℕ) :
    (freqsOf chunk).getD i 0
      = if i < chunk.length / 2 + 1
        then (i : ℝ) * (sample_rate : ℝ) / (chunk.length : ℝ) else 0 := by
  rw [freqsOf, rfftfreq, windowedOf_length]
  exact getD_map_range _ _ _

lemma analyze_frequency_cases (chunk : List ℝ) :
    analyze_frequency chunk = 0 ∨
      (0 < analyze_frequency chunk ∧ analyze_frequency chunk ≤ (sample_rate : ℝ) / 2) := by
  rw [analyze_frequency, analyzeWith]
  split
  · exact Or.inl rfl
  · rw [spectrumPipeline_eq]
    have hlt : dominantIdx chunk < chunk.length / 2 + 1 := by
      have := dominantIdx_lt chunk
      rwa [magsOf_length] at this
    rw [freqsOf_getD, if_pos hlt]
    rcases Nat.eq_zero_or_pos (dominantIdx chunk) with h0 | hpos
    · left
      rw [h0]
      simp
    · right
      have hN : 0 < chunk.length := by omega
      have hNr : (0:ℝ) < (chunk.length : ℝ) := by exact_mod_cast hN
      have hdr : (0:ℝ) < (dominantIdx chunk : ℝ) := by exact_mod_cast hpos
      have hsr : (0:ℝ) < (sample_rate : ℝ) := by norm_num [sample_rate]
      constructor
      · exact div_pos (mul_pos hdr hsr) hNr
      · have hd2 : dominantIdx chunk ≤ chunk.length / 2 := by omega
        have hcast : (dominantIdx chunk : ℝ) ≤ (chunk.length : ℝ) / 2 :=
          le_trans (Nat.cast_le.mpr hd2) Nat.cast_div_le
        rw [div_le_iff hNr]
        nlinarith [hcast, hsr]

/-- C2: when the maximum absolute sample value of a block is below the gate
threshold `0.01`, the analysis returns `0.0` whatever the spectral stage
would compute (the spectrum is never inspected), and the note derived from
the estimate is `"Silence"`. -/
theorem c2_amplitude_gate (f : List ℝ → ℝ) (chunk : List ℝ)
    (h : maxAbs chunk < 0.01) :
    analyzeWith f chunk = 0 ∧
    analyze_frequency chunk = 0 ∧
    freq_to_note (analyze_frequency chunk) = "Silence" := by
  have h2 : analyze_frequency chunk = 0 := by
    rw [analyze_frequency, analyzeWith, if_pos h]
  refine ⟨by rw [analyzeWith, if_pos h], h2, ?_⟩
  rw [h2, freq_to_note, if_pos (by norm_num)]

/-- C2 witness: the concrete quiet block `[0.005, -0.009]` is gated to the
silence estimate and the silence label. -/
theorem c2_witness :
    maxAbs [(0.005 : ℝ), -0.009] < 0.01 ∧
    analyze_frequency [(0.005 : ℝ), -0.009] = 0 ∧
    freq_to_note (analyze_frequency [(0.005 : ℝ), -0.009]) = "Silence" := by
  have hm : maxAbs [(0.005 : ℝ), -0.009] < 0.01 := by
    rw [maxAbs]
    simp only [List.foldr_cons, List.foldr_nil]
    rw [abs_of_nonneg (by norm_num), abs_of_nonpos (by norm_num)]
    norm_num [max_def]
  have h := c2_amplitude_gate spectrumPipeline [(0.005 : ℝ), -0.009] hm
  exact ⟨hm, h.2.1, h.2.2⟩

lemma hann511_bounds : 0 < hannAt 1024 511 ∧ hannAt 1024 511 ≤ 1 := by
  have hangle : 2 * Real.pi * ((511:ℕ):ℝ) / (((1024:ℕ):ℝ) - 1) = Real.pi * (1022/1023) := by
    push_cast
    ring
  rw [hannAt, hangle]
  have hπ := Real.pi_pos
  have h1 : Real.cos (Real.pi * (1022/1023)) < 1 := by
    have hc : Real.cos (Real.pi * (1022/1023)) < Real.cos 0 :=
      Real.cos_lt_cos_of_nonneg_of_le_pi (le_refl 0) (by nlinarith [hπ]) (by positivity)
    rwa [Real.cos_zero] at hc
  have h2 : -1 ≤ Real.cos (Real.pi * (1022/1023)) := Real.neg_one_le_cos _
  constructor
  · linarith
  · linarith

lemma deltaChunk_length : deltaChunk.length = 1024 := by
  simp [deltaChunk]

lemma deltaChunk_gate : ¬ (maxAbs deltaChunk < 0.01) := by
  have hmem : (1/2) / hannAt 1024 511 ∈ deltaChunk := by
    rw [deltaChunk]
    refine List.mem_map.mpr ⟨511, by simp, ?_⟩
    rw [if_pos rfl]
  have hle := mem_le_maxAbs _ _ hmem
  have hw := hann511_bounds
  have hval : (1/2 : ℝ) ≤ (1/2) / hannAt 1024 511 := by
    rw [le_div_iff hw.1]
    nlinarith [hw.2]
  have habs : |(1/2) / hannAt 1024 511| = (1/2) / hannAt 1024 511 :=
    abs_of_nonneg (le_of_lt (div_pos (by norm_num) hw.1))
  rw [habs] at hle
  intro hcon
  linarith

lemma windowed_delta :
    windowedOf deltaChunk
      = (List.range 1024).map (fun i => if i = 511 then (1/2 : ℝ) else 0) := by
  rw [windowedOf, deltaChunk_length, deltaChunk, hanning, if_neg (by norm_num)]
  rw [List.zipWith_map, List.zipWith_same]
  apply List.map_congr_left
  intro a _
  by_cases h : a = 511
  · rw [if_pos h, if_pos h, h]
    exact div_mul_cancel₀ _ (ne_of_gt hann511_bounds.1)
  · rw [if_neg h, if_neg h, zero_mul]

lemma abs_dftBin_delta (k : ℕ) :
    Complex.abs
      (dftBin ((List.range 1024).map (fun i => if i = 511 then (1/2:ℝ) else 0)) k)
      = 1/2 := by
  rw [dftBin]
  have hlen : ((List.range 1024).map
      (fun i => if i = 511 then (1/2:ℝ) else 0)).length = 1024 := by
    simp
  rw [hlen]
  have hsummand : ∀ i ∈ Finset.range 1024,
      ((((List.range 1024).map (fun i => if i = 511 then (1/2:ℝ) else 0)).getD i 0 : ℝ) : ℂ)
          * Complex.exp ((-(2 * Real.pi * i * k / (1024:ℕ)) : ℝ) * Complex.I)
        = if i = 511
          then ((1/2 : ℝ) : ℂ)
            * Complex.exp ((-(2 * Real.pi * i * k / (1024:ℕ)) : ℝ) * Complex.I)
          else 0 := by
    intro i hi
    rw [getD_map_range, if_pos (Finset.mem_range.mp hi)]
    by_cases h : i = 511
    · rw [if_pos h, if_pos h]
    · rw [if_neg h, if_neg h, Complex.ofReal_zero, zero_mul]
  rw [Finset.sum_congr rfl hsummand, Finset.sum_ite_eq' (Finset.range 1024) 511]
  rw [if_pos (by simp)]
  rw [map_mul, Complex.abs_ofReal, Complex.abs_exp_ofReal_mul_I, mul_one]
  norm_num

lemma mags_delta : magsOf deltaChunk = List.replicate 513 (1/2 : ℝ) := by
  rw [magsOf, windowed_delta, magnitudes]
  have hlen : ((List.range 1024).map
      (fun i => if i = 511 then (1/2:ℝ) else 0)).length = 1024 := by
    simp
  rw [hlen]
  rw [show (1024 : ℕ) / 2 + 1 = 513 from rfl]
  refine List.eq_replicate.mpr ⟨by simp, ?_⟩
  intro b hb
  rcases List.mem_map.mp hb with ⟨kk, _, hkk⟩
  rw [← hkk]
  exact abs_dftBin_delta kk

lemma minIdxOf_delta : minIdxOf deltaChunk = 1 := by
  rw [minIdxOf, freqsOf_length, deltaChunk_length, minFreqIdx, sample_rate]

lemma dominantIdx_delta : dominantIdx deltaChunk = 1 := by
  rw [dominantIdx, minIdxOf_delta, mags_delta, List.drop_replicate, argmaxIdx_replicate]

lemma analyze_delta : analyze_frequency deltaChunk = 44100 / 1024 := by
  rw [analyze_frequency, analyzeWith, if_neg deltaChunk_gate, spectrumPipeline_eq,
    dominantIdx_delta, freqsOf_getD, deltaChunk_length]
  rw [if_pos (by norm_num)]
  norm_num [sample_rate]

/-- C3 counterexample: the block `deltaChunk` passes the amplitude gate and
the analysis returns the nonzero frequency `44100/1024 ≈ 43.07 Hz`, which is
below 50 Hz: the code's cutoff index `int(50*len(freqs)/(R/2))` truncates
downward, so the first retained bin lies below 50 Hz. -/
theorem c3_counterexample :
    ¬ (maxAbs deltaChunk < 0.01) ∧
    analyze_frequency deltaChunk ≠ 0 ∧
    analyze_frequency deltaChunk < 50 := by
  refine ⟨deltaChunk_gate, ?_, ?_⟩
  · rw [analyze_delta]
    norm_num
  · rw [analyze_delta]
    norm_num

/-- C3 (amended): for every block passing the amplitude gate, the bins below
the truncated cutoff index `int(50*len(freqs)/(R/2))` (index 1 at the default
configuration, whose bin frequency `44100/1024 ≈ 43.07 Hz` is below 50 Hz)
are excluded from selection, the selected bin is within the spectrum bounds,
the analysis returns the frequency of the selected bin, and the selected bin
is the first index of maximum magnitude among the retained bins (a stable
argmax: it weakly dominates all retained bins and strictly dominates all
earlier retained bins). -/
theorem c3_bin_selection (chunk : List ℝ) (hgate : ¬ (maxAbs chunk < 0.01)) :
    minIdxOf chunk ≤ dominantIdx chunk ∧
    dominantIdx chunk < (magsOf chunk).length ∧
    analyze_frequency chunk = (freqsOf chunk).getD (dominantIdx chunk) 0 ∧
    (∀ j, minIdxOf chunk ≤ j → j < (magsOf chunk).length →
      (magsOf chunk).getD j 0 ≤ (magsOf chunk).getD (dominantIdx chunk) 0) ∧
    (∀ j, minIdxOf chunk ≤ j → j < dominantIdx chunk →
      (magsOf chunk).getD j 0 < (magsOf chunk).getD (dominantIdx chunk) 0) := by
  have hs : (magsOf chunk).drop (minIdxOf chunk) ≠ [] := by
    have := drop_mags_length_pos chunk
    intro h
    rw [h] at this
    simp at this
  have hslen : ((magsOf chunk).drop (minIdxOf chunk)).length
      = (magsOf chunk).length - minIdxOf chunk := List.length_drop _ _
  have hdom : (magsOf chunk).getD (dominantIdx chunk) 0
      = listMax ((magsOf chunk).drop (minIdxOf chunk)) := by
    rw [dominantIdx, Nat.add_comm, ← getD_drop]
    exact getD_argmaxIdx _ hs
  refine ⟨Nat.le_add_left _ _, dominantIdx_lt chunk, ?_, ?_, ?_⟩
  · rw [analyze_frequency, analyzeWith, if_neg hgate, spectrumPipeline_eq]
  · intro j hj1 hj2
    have hgetj : (magsOf chunk).getD j 0
        = ((magsOf chunk).drop (minIdxOf chunk)).getD (j - minIdxOf chunk) 0 := by
      rw [getD_drop]
      congr 1
      omega
    rw [hgetj, hdom]
    have hjlt : j - minIdxOf chunk < ((magsOf chunk).drop (minIdxOf chunk)).length := by
      rw [hslen]
      omega
    refine le_listMax _ _ ?_
    rw [List.getD_eq_getElem _ _ hjlt]
    exact List.getElem_mem hjlt
  · intro j hj1 hj2
    have hgetj : (magsOf chunk).getD j 0
        = ((magsOf chunk).drop (minIdxOf chunk)).getD (j - minIdxOf chunk) 0 := by
      rw [getD_drop]
      congr 1
      omega
    rw [hgetj, hdom]
    refine argmaxIdx_stable _ _ ?_
    rw [dominantIdx] at hj2
    omega

/-- C3 witness: at the concrete block `deltaChunk` the gate hypothesis holds
and the selected bin is at or above the cutoff index, with the returned
frequency being that bin's frequency. -/
theorem c3_witness :
    minIdxOf deltaChunk ≤ dominantIdx deltaChunk ∧
    analyze_frequency deltaChunk
      = (freqsOf deltaChunk).getD (dominantIdx deltaChunk) 0 :=
  ⟨(c3_bin_selection deltaChunk deltaChunk_gate).1,
    (c3_bin_selection deltaChunk deltaChunk_gate).2.2.1⟩

/-- C10: for every non-empty block the analysis is total and returns either
`0.0` or a strictly positive frequency at most the Nyquist frequency `R/2`;
the selected bin index is always within the bounds of the frequency array;
and the nonzero result can be as low as the first retained bin: the block
`deltaChunk` of the configured length 1024 is mapped to bin 1, frequency
`44100/1024 ≈ 43.07 Hz`, which is below the 50 Hz note-mapper threshold. -/
theorem c10_totality :
    (∀ chunk : List ℝ, chunk ≠ [] →
      analyze_frequency chunk = 0 ∨
        (0 < analyze_frequency chunk ∧ analyze_frequency chunk ≤ (sample_rate : ℝ) / 2)) ∧
    (∀ chunk : List ℝ, chunk ≠ [] → dominantIdx chunk < (freqsOf chunk).length) ∧
    deltaChunk.length = blocksize ∧
    dominantIdx deltaChunk = minIdxOf deltaChunk ∧
    analyze_frequency deltaChunk = 44100 / 1024 ∧
    0 < analyze_frequency deltaChunk ∧ analyze_frequency deltaChunk < 50 := by
  refine ⟨fun chunk _ => analyze_frequency_cases chunk, ?_, ?_, ?_, analyze_delta, ?_, ?_⟩
  · intro chunk _
    have := dominantIdx_lt chunk
    rwa [magsOf_length, ← freqsOf_length] at this
  · rw [deltaChunk_length, blocksize]
  · rw [dominantIdx_delta, minIdxOf_delta]
  · rw [analyze_delta]
    norm_num
  · rw [analyze_delta]
    norm_num

/-- C10 witness: the totality disjunction applied to the concrete non-empty
block `[1.0]`. -/
theorem c10_witness :
    analyze_frequency [(1:ℝ)] = 0 ∨
      (0 < analyze_frequency [(1:ℝ)] ∧
        analyze_frequency [(1:ℝ)] ≤ (sample_rate : ℝ) / 2) :=
  c10_totality.1 [(1:ℝ)] (by simp)

end Sirius
